import Mathlib

/-!
Verification development for the rules-based transcript moderation core
(`transcript_moderation_optimized.py` and the aggregation part of
`lambda_handler.py`).

Texts are modelled as `List Char` (one element per Unicode code point, as in
Python strings).  Python's Aho-Corasick automaton (`ahocorasick.Automaton`)
is modelled extensionally: `automatonMatches` enumerates, for every end
position of the text, every stored pattern occurring there, longest first,
which is the order `Automaton.iter` reports matches in once the automaton
is finalized.  `make_automaton()` has no effect on a trie holding no words,
so on the automaton of an empty dictionary `Automaton.iter` raises
`AttributeError`; `automatonIter` and `find_violations_run` keep that
failure, and `find_violations` is the successful branch.  Python's
`str.lower` is modelled on the ASCII range (the dictionary entries and
boundary classes in the source are ASCII).
-/

/-- Characters treated as whitespace by Python's `str.strip`. -/
def isPyWhitespace (c : Char) : Bool :=
  c = ' ' || c = '\t' || c = '\n' || c = '\x0d' || c = '\x0b' || c = '\x0c'

/-- Python `str.strip`: drop whitespace from both ends. -/
def pyStrip (l : List Char) : List Char :=
  ((l.dropWhile isPyWhitespace).reverse.dropWhile isPyWhitespace).reverse

/-- Python `str.lower` on the ASCII letters (identity elsewhere). -/
def pyToLower (c : Char) : Char :=
  if 'A' ≤ c ∧ c ≤ 'Z' then Char.ofNat (c.toNat + 32) else c

/-- Helper for `pySplit`, consuming at least one character of `s` per call. -/
def pySplitGo (sep : List Char) : Nat → List Char → List Char → List (List Char)
  | 0, cur, s => [cur.reverse ++ s]
  | fuel + 1, cur, s =>
    if sep ≠ [] ∧ sep.isPrefixOf s then
      cur.reverse :: pySplitGo sep fuel [] (s.drop sep.length)
    else
      match s with
      | [] => [cur.reverse]
      | c :: rest => pySplitGo sep fuel (c :: cur) rest

/-- Python `str.split(sep)` for a non-empty separator. -/
def pySplit (sep s : List Char) : List (List Char) :=
  pySplitGo sep (s.length + 1) [] s

/-- Python `pat in l` (substring containment). -/
def listContainsSub (pat l : List Char) : Bool :=
  (List.range (l.length + 1)).any (fun i => pat.isPrefixOf (l.drop i))

/-- The Unicode non-breaking hyphen U+2011. -/
def nbHyphen : Char := Char.ofNat 0x2011

/-- Payload stored per keyword in the automaton
(`transcript_moderation_optimized.py` lines 39-43). -/
structure EntryData where
  categories : List (List Char)
  severity : List Char
  original : List Char
deriving DecidableEq

/-- Classification tag added to each automaton word ("word" or "phrase"). -/
inductive MatchType where
  | word
  | phrase
deriving DecidableEq

/-- A row of `keyword_data` as produced by `ModerationEngine._load_keywords`. -/
structure KeywordItem where
  keyword : List Char
  categories : List (List Char)
  severity : List Char
deriving DecidableEq

/-- One stored automaton word: pattern, payload, and classification. -/
abbrev AutEntry := List Char × EntryData × MatchType

/-- `Automaton.add_word`: storing an existing pattern again replaces its
payload; a new pattern is appended. -/
def autAdd (a : List AutEntry) (k : List Char) (v : EntryData × MatchType) : List AutEntry :=
  if a.any (fun p => decide (p.1 = k)) then
    a.map (fun p => if p.1 = k then (k, v.1, v.2) else p)
  else a ++ [(k, v.1, v.2)]

/-- The matcher state: the contents of the built automaton.  The
`single_words` and `phrases` dicts of `KeywordMatcher.__init__` are
subsumed by the `MatchType` tag. -/
structure KeywordMatcher where
  entries : List AutEntry
deriving DecidableEq

/-- One iteration of the keyword loop of `KeywordMatcher.__init__`
(lines 35-52): skip unusable keywords, normalize by lowercasing and
stripping, classify by an internal space, and add to the automaton. -/
def addKeywordItem (a : List AutEntry) (item : KeywordItem) : List AutEntry :=
  if item.keyword ≠ [] ∧ pyStrip item.keyword ≠ [] then
    let normalized := pyStrip (item.keyword.map pyToLower)
    let data : EntryData := ⟨item.categories, item.severity, item.keyword⟩
    if ' ' ∈ normalized then autAdd a normalized (data, MatchType.phrase)
    else autAdd a normalized (data, MatchType.word)
  else a

/-- `KeywordMatcher.__init__`: build the automaton from `keyword_data`. -/
def mkKeywordMatcher (keyword_data : List KeywordItem) : KeywordMatcher :=
  ⟨keyword_data.foldl addKeywordItem []⟩

/-- A single pre-compiled-regex test `[a-zA-Z0-9-]` on one character
(line 58 of the source). -/
def isWordChar (c : Char) : Bool :=
  (decide ('a' ≤ c) && decide (c ≤ 'z')) ||
  (decide ('A' ≤ c) && decide (c ≤ 'Z')) ||
  (decide ('0' ≤ c) && decide (c ≤ '9')) || c = '-'

/-- `KeywordMatcher._check_word_boundary` (lines 65-75). -/
def check_word_boundary (text : List Char) (start stop : Nat) : Bool :=
  !(decide (0 < start) && isWordChar (text.getD (start - 1) ' ')) &&
  !(decide (stop < text.length) && isWordChar (text.getD stop ' '))

/-- The normalization applied by `find_violations` (line 82):
`text.lower().replace("‑", "-")`. -/
def normalizeText (text : List Char) : List Char :=
  (text.map pyToLower).map (fun c => if c = nbHyphen then '-' else c)

/-- A pattern occurrence reported by the automaton at end position `e`
(`e` is the index of the occurrence's last character). -/
def entMatchesAt (text : List Char) (e : Nat) (p : List Char) : Bool :=
  decide (p ≠ []) && decide (p.length ≤ e + 1) && p.isPrefixOf (text.drop (e + 1 - p.length))

/-- Insert an automaton entry into a list sorted by decreasing pattern length. -/
def insertByLen (x : AutEntry) : List AutEntry → List AutEntry
  | [] => [x]
  | y :: ys => if y.1.length ≤ x.1.length then x :: y :: ys else y :: insertByLen x ys

/-- Sort automaton entries by decreasing pattern length. -/
def sortByLen (l : List AutEntry) : List AutEntry := l.foldr insertByLen []

/-- The match stream of `Automaton.iter` over `text` for a finalized
automaton (one holding at least one pattern): for each end position in
increasing order, every stored pattern ending there, longest first.
Iterating an automaton that was never finalized — `make_automaton()` has no
effect on a trie holding no words — raises instead; that failure is kept by
`automatonIter` and `find_violations_run` below. -/
def automatonMatches (m : KeywordMatcher) (text : List Char) : List (Nat × AutEntry) :=
  (List.range text.length).flatMap (fun e =>
    (sortByLen (m.entries.filter (fun ent => entMatchesAt text e ent.1))).map
      (fun ent => (e, ent)))

/-- One reported hit of `find_violations` (the dict of lines 102-106). -/
structure Hit where
  keyword : List Char
  categories : List (List Char)
  severity : List Char
deriving DecidableEq

/-- The loop state of `find_violations`: the `seen_violations` set (as a
list of keys) paired with the accumulated hits, each hit carrying the
start position it was accepted at. -/
abbrev FvState := List (List Char × Nat) × List (Hit × Nat)

/-- The key `(keyword, start_position)` used for deduplication. -/
def keyOf (p : Hit × Nat) : List Char × Nat := (p.1.keyword, p.2)

/-- One iteration of the match loop of `find_violations` (lines 85-107):
boundary-filter single words, then deduplicate by `(keyword, start_pos)`. -/
def fvStep (tn : List Char) (st : FvState) (pm : Nat × AutEntry) : FvState :=
  let endPos := pm.1
  let keyword := pm.2.1
  let data := pm.2.2.1
  let mtype := pm.2.2.2
  let startPos := endPos + 1 - keyword.length
  if mtype = MatchType.word ∧ check_word_boundary tn startPos (endPos + 1) = false then st
  else if (keyword, startPos) ∈ st.1 then st
  else (st.1 ++ [(keyword, startPos)],
        st.2 ++ [(⟨keyword, data.categories, data.severity⟩, startPos)])

/-- `find_violations` instrumented with the start position of each kept hit. -/
def findViolationsKeyed (m : KeywordMatcher) (text : List Char) : List (Hit × Nat) :=
  ((automatonMatches m (normalizeText text)).foldl
    (fvStep (normalizeText text)) ([], [])).2

/-- `KeywordMatcher.find_violations` (lines 77-109), successful branch: the
hit list produced when the automaton iteration succeeds, i.e. when the
automaton holds at least one pattern. -/
def find_violations (m : KeywordMatcher) (text : List Char) : List Hit :=
  (findViolationsKeyed m text).map Prod.fst

/-- A Python exception observable from `find_violations`. -/
inductive PyError where
  | attributeError
deriving DecidableEq

/-- `Automaton.iter` as the library behaves: a fresh automaton only becomes
an Aho-Corasick automaton through `make_automaton()`, which has no effect on
a trie holding no words, so iterating the automaton of an empty dictionary
raises `AttributeError`; on a finalized automaton it yields the match
stream. -/
def automatonIter (m : KeywordMatcher) (text : List Char) :
    Except PyError (List (Nat × AutEntry)) :=
  if m.entries = [] then Except.error PyError.attributeError
  else Except.ok (automatonMatches m text)

/-- `KeywordMatcher.find_violations` with the library's zero-pattern failure
kept: the call raises exactly when the dictionary stored no pattern, and
otherwise runs the match loop of lines 85-107. -/
def find_violations_run (m : KeywordMatcher) (text : List Char) :
    Except PyError (List Hit) :=
  match automatonIter m (normalizeText text) with
  | Except.error e => Except.error e
  | Except.ok ms =>
      Except.ok (((ms.foldl (fvStep (normalizeText text)) ([], [])).2).map Prod.fst)

/-- `Utterance` dataclass (lines 9-14). -/
structure Utterance where
  speaker : List Char
  text : List Char
  start_time : List Char
  end_time : List Char
deriving DecidableEq

/-- Token of the fixed timestamp regex: a digit class or a literal character. -/
inductive TsTok where
  | dig
  | lit (c : Char)
deriving DecidableEq

/-- Match one regex token against one character. -/
def tsTokMatch : TsTok → Char → Bool
  | TsTok.dig, c => decide ('0' ≤ c) && decide (c ≤ '9')
  | TsTok.lit l, c => c = l

/-- The shape `dd:dd:dd.ddd` of one timestamp group. -/
def tsStamp : List TsTok :=
  [TsTok.dig, TsTok.dig, TsTok.lit ':', TsTok.dig, TsTok.dig, TsTok.lit ':',
   TsTok.dig, TsTok.dig, TsTok.lit '.', TsTok.dig, TsTok.dig, TsTok.dig]

/-- The full timestamp-line pattern of line 125 of the source. -/
def tsFull : List TsTok :=
  tsStamp ++ [TsTok.lit ' ', TsTok.lit '-', TsTok.lit '-', TsTok.lit '>', TsTok.lit ' '] ++ tsStamp

/-- Whether a token list matches a character list exactly. -/
def tsSpecMatches (spec : List TsTok) (cs : List Char) : Bool :=
  decide (spec.length = cs.length) && (spec.zip cs).all (fun p => tsTokMatch p.1 p.2)

/-- Whether the timestamp pattern matches `block` starting at index `i`. -/
def tsMatchAt (block : List Char) (i : Nat) : Bool :=
  tsSpecMatches tsFull ((block.drop i).take 29)

/-- `re.search` of the timestamp pattern: the first index where it matches. -/
def tsSearch (block : List Char) : Option Nat :=
  (List.range block.length).find? (tsMatchAt block)

/-- Process one caption line after the timestamp line (lines 134-143):
split on the first colon, strip both parts, and emit when the text part is
non-empty. -/
def parseLine (start_time end_time line : List Char) : List Utterance :=
  if line.contains ':' then
    if pyStrip ((line.dropWhile (fun c => c != ':')).drop 1) ≠ [] then
      [⟨pyStrip (line.takeWhile (fun c => c != ':')),
        pyStrip ((line.dropWhile (fun c => c != ':')).drop 1), start_time, end_time⟩]
    else []
  else []

/-- Process one blank-line-separated block (lines 118-143). -/
def parseBlock (block : List Char) : List Utterance :=
  if (pySplit ['\n'] (pyStrip block)).length < 3 ||
      listContainsSub "WEBVTT".toList ((pySplit ['\n'] (pyStrip block)).headD []) then []
  else
    match tsSearch block with
    | none => []
    | some i =>
      ((pySplit ['\n'] (pyStrip block)).drop 2).flatMap
        (parseLine ((block.drop i).take 12) ((block.drop (i + 17)).take 12))

/-- `TranscriptParser.parse_vtt` (lines 113-145). -/
def parse_vtt (content : List Char) : List Utterance :=
  (pySplit ['\n', '\n'] (pyStrip content)).flatMap parseBlock

/-- `Violation` dataclass (lines 17-24). -/
structure Violation where
  keyword : List Char
  speaker : List Char
  text : List Char
  timestamp : List Char
  categories : List (List Char)
  severity : List Char
deriving DecidableEq

/-- The per-utterance matching loop shared by `ModerationEngine.process_transcript`
(lines 188-200) and the lambda handler (lines 113-125): bind each hit to its
utterance's speaker, text and start time. -/
def collect_violations (m : KeywordMatcher) (utts : List Utterance) : List Violation :=
  utts.flatMap (fun u =>
    (find_violations m u.text).map (fun h =>
      ⟨h.keyword, u.speaker, u.text, u.start_time, h.categories, h.severity⟩))

/-- The `severity_scores` dict `LOW:1, MEDIUM:5, HIGH:10` (line 203). -/
def severity_scores : List (List Char × Nat) :=
  [("LOW".toList, 1), ("MEDIUM".toList, 5), ("HIGH".toList, 10)]

/-- `severity_scores.get(severity, 1)`. -/
def severityScoreOf (s : List Char) : Nat :=
  ((severity_scores.find? (fun p => decide (p.1 = s))).map (fun p => p.2)).getD 1

/-- `compound_score` (line 204). -/
def compound_severity_score (vs : List Violation) : Nat :=
  (vs.map (fun v => severityScoreOf v.severity)).sum

/-- The fixed severity rank order of line 208. -/
def severity_order : List (List Char) := ["HIGH".toList, "MEDIUM".toList, "LOW".toList]

/-- The highest-severity computation of lines 206-218: `None` when there are
no violations, else the first of HIGH, MEDIUM, LOW present, defaulting to
LOW. -/
def highest_severity_level (vs : List Violation) : Option (List Char) :=
  if vs = [] then none
  else some ((severity_order.find?
      (fun sev => vs.any (fun v => decide (v.severity = sev)))).getD ("LOW".toList))

/-- Python `set.add` on a set modelled as a duplicate-free list. -/
def addSet {α} [DecidableEq α] (l : List α) (x : α) : List α :=
  if x ∈ l then l else l ++ [x]

/-- Python `list(set(...))` over the elements of `l`. -/
def pySetList {α} [DecidableEq α] (l : List α) : List α := l.foldl addSet []

/-- The abbreviated per-violation record appended per category
(lines 231-238 of the engine, 181-188 of the handler). -/
structure FlagRec where
  keyword : List Char
  speaker : List Char
  timestamp : List Char
  severity : List Char
deriving DecidableEq

/-- Build the abbreviated record from a violation. -/
def flagOf (v : Violation) : FlagRec := ⟨v.keyword, v.speaker, v.timestamp, v.severity⟩

/-- One category bucket: running count, abbreviated records, and the set of
speakers (materialized as a duplicate-free list). -/
structure CategoryEntry where
  count : Nat
  flags : List FlagRec
  speakers : List (List Char)
deriving DecidableEq

/-- One inner iteration of the category loop (lines 223-239): create the
bucket on first sight of a category, then bump its count, append the
abbreviated record, and add the speaker. -/
def updateCategory (v : Violation) (cr : List (List Char × CategoryEntry)) (cat : List Char) :
    List (List Char × CategoryEntry) :=
  let cr' := if cr.any (fun p => decide (p.1 = cat)) then cr else cr ++ [(cat, ⟨0, [], []⟩)]
  cr'.map (fun p =>
    if p.1 = cat then
      (p.1, ⟨p.2.count + 1, p.2.flags ++ [flagOf v], addSet p.2.speakers v.speaker⟩)
    else p)

/-- The category report of `process_transcript` (lines 220-245) and of the
lambda handler (lines 170-194); the two differ only in the JSON key naming
the record list. -/
def category_report (vs : List Violation) : List (List Char × CategoryEntry) :=
  vs.foldl (fun cr v => v.categories.foldl (updateCategory v) cr) []

/-- The value of one top-level report field. -/
inductive RVal where
  | nat (n : Nat)
  | str (s : List Char)
  | onat (s : Option (List Char))
  | vlist (vs : List Violation)
  | slist (ss : List (List Char))
  | creport (cr : List (List Char × CategoryEntry))
deriving DecidableEq

/-- `ModerationEngine.process_transcript` (lines 181-255), with the file read
replaced by the file's content: the returned dict as an ordered list of
(key, value) fields. -/
def process_transcript (m : KeywordMatcher) (content : List Char) : List (String × RVal) :=
  let utterances := parse_vtt content
  let violations := collect_violations m utterances
  [("total_utterances", RVal.nat utterances.length),
   ("total_flags", RVal.nat violations.length),
   ("compound_severity_score", RVal.nat (compound_severity_score violations)),
   ("highest_severity_level", RVal.onat (highest_severity_level violations)),
   ("flags", RVal.vlist violations),
   ("speakers_with_flags", RVal.slist (pySetList (violations.map (fun v => v.speaker)))),
   ("category_report", RVal.creport (category_report violations))]

/-- The `results` dict built by the lambda handler (lines 196-209), with the
job metadata passed in and the downloaded files replaced by the transcript
content. -/
def lambda_results (jobId transcriptFile transcriptUrl processedAt : List Char)
    (m : KeywordMatcher) (content : List Char) : List (String × RVal) :=
  let utterances := parse_vtt content
  let violations := collect_violations m utterances
  [("job_id", RVal.str jobId),
   ("transcript_file", RVal.str transcriptFile),
   ("transcript_s3_url", RVal.str transcriptUrl),
   ("processed_at", RVal.str processedAt),
   ("total_utterances", RVal.nat utterances.length),
   ("total_violations", RVal.nat violations.length),
   ("compound_severity_score", RVal.nat (compound_severity_score violations)),
   ("highest_severity_level", RVal.onat (highest_severity_level violations)),
   ("violations", RVal.vlist violations),
   ("speakers_with_violations", RVal.slist (pySetList (violations.map (fun v => v.speaker)))),
   ("category_report", RVal.creport (category_report violations))]

/-- Dict lookup on the modelled report. -/
def dictLookup (d : List (String × RVal)) (k : String) : Option RVal :=
  (d.find? (fun p => decide (p.1 = k))).map (fun p => p.2)

/-! ### Lemmas about the match loop of `find_violations` -/

/-- Each step of the match loop either leaves the state unchanged or appends
one key and one matching hit, the key being fresh and the boundary check
passing for single words. -/
lemma fvStep_cases (tn : List Char) (st : FvState) (pm : Nat × AutEntry) :
    fvStep tn st pm = st ∨
    (fvStep tn st pm =
        (st.1 ++ [(pm.2.1, pm.1 + 1 - pm.2.1.length)],
         st.2 ++ [(⟨pm.2.1, pm.2.2.1.categories, pm.2.2.1.severity⟩, pm.1 + 1 - pm.2.1.length)]) ∧
      (pm.2.1, pm.1 + 1 - pm.2.1.length) ∉ st.1 ∧
      (pm.2.2.2 = MatchType.word →
        check_word_boundary tn (pm.1 + 1 - pm.2.1.length) (pm.1 + 1) = true)) := by
  unfold fvStep
  by_cases h1 : pm.2.2.2 = MatchType.word ∧
      check_word_boundary tn (pm.1 + 1 - pm.2.1.length) (pm.1 + 1) = false
  · simp [h1]
  · by_cases h2 : (pm.2.1, pm.1 + 1 - pm.2.1.length) ∈ st.1
    · simp [h1, h2]
    · refine Or.inr ⟨by simp [h1, h2], h2, ?_⟩
      intro hw
      rcases hb : check_word_boundary tn (pm.1 + 1 - pm.2.1.length) (pm.1 + 1) with _ | _
      · exact absurd ⟨hw, hb⟩ h1
      · rfl

/-- The `seen_violations` set only grows along the match loop. -/
lemma fv_seen_mono (tn : List Char) (ms : List (Nat × AutEntry)) :
    ∀ (st : FvState) (x : List Char × Nat), x ∈ st.1 → x ∈ (ms.foldl (fvStep tn) st).1 := by
  induction ms with
  | nil => intro st x hx; simpa using hx
  | cons m ms ih =>
    intro st x hx
    rw [List.foldl_cons]
    apply ih
    rcases fvStep_cases tn st m with h | ⟨h, _, _⟩ <;> rw [h]
    · exact hx
    · exact List.mem_append_left _ hx

/-- Invariant of the match loop: the seen-key set is exactly the list of
keys of the emitted hits. -/
lemma fv_sync (tn : List Char) (ms : List (Nat × AutEntry)) :
    ∀ (st : FvState), st.1 = st.2.map keyOf →
      (ms.foldl (fvStep tn) st).1 = (ms.foldl (fvStep tn) st).2.map keyOf := by
  induction ms with
  | nil => intro st h; simpa using h
  | cons m ms ih =>
    intro st h
    rw [List.foldl_cons]
    apply ih
    rcases fvStep_cases tn st m with hc | ⟨hc, _, _⟩ <;> rw [hc]
    · exact h
    · simp [keyOf, h]

/-- The seen-key list never acquires duplicates. -/
lemma fv_seen_nodup (tn : List Char) (ms : List (Nat × AutEntry)) :
    ∀ (st : FvState), st.1.Nodup → (ms.foldl (fvStep tn) st).1.Nodup := by
  induction ms with
  | nil => intro st h; simpa using h
  | cons m ms ih =>
    intro st h
    rw [List.foldl_cons]
    apply ih
    rcases fvStep_cases tn st m with hc | ⟨hc, hfresh, _⟩ <;> rw [hc]
    · exact h
    · simp only [List.nodup_append, List.nodup_cons, List.nodup_nil]
      exact ⟨h, by simp, by simpa using hfresh⟩

/-- Soundness of the match loop: every emitted hit was present initially or
stems from one of the processed matches, with the boundary check passing
when that match is a single word. -/
lemma fv_sound (tn : List Char) (ms : List (Nat × AutEntry)) :
    ∀ (st : FvState) (p : Hit × Nat), p ∈ (ms.foldl (fvStep tn) st).2 →
      p ∈ st.2 ∨ ∃ e ent, (e, ent) ∈ ms ∧
        p.1 = ⟨ent.1, ent.2.1.categories, ent.2.1.severity⟩ ∧
        p.2 = e + 1 - ent.1.length ∧
        (ent.2.2 = MatchType.word →
          check_word_boundary tn (e + 1 - ent.1.length) (e + 1) = true) := by
  induction ms with
  | nil => intro st p hp; exact Or.inl (by simpa using hp)
  | cons m ms ih =>
    intro st p hp
    rw [List.foldl_cons] at hp
    rcases ih (fvStep tn st m) p hp with hin | ⟨e, ent, hm, h1, h2, h3⟩
    · rcases fvStep_cases tn st m with hc | ⟨hc, _, hb⟩
      · rw [hc] at hin; exact Or.inl hin
      · rw [hc] at hin
        rcases List.mem_append.mp hin with hold | hnew
        · exact Or.inl hold
        · refine Or.inr ⟨m.1, m.2, List.mem_cons_self _ _, ?_, ?_, ?_⟩
          · simp at hnew; rw [hnew]
          · simp at hnew; rw [hnew]
          · exact hb
    · exact Or.inr ⟨e, ent, List.mem_cons_of_mem _ hm, h1, h2, h3⟩

/-- A processed match whose boundary check passes (when required) leaves its
key in the seen set of the very next state. -/
lemma fvStep_key_mem (tn : List Char) (st : FvState) (pm : Nat × AutEntry)
    (hb : pm.2.2.2 = MatchType.word →
      check_word_boundary tn (pm.1 + 1 - pm.2.1.length) (pm.1 + 1) = true) :
    (pm.2.1, pm.1 + 1 - pm.2.1.length) ∈ (fvStep tn st pm).1 := by
  unfold fvStep
  by_cases h1 : pm.2.2.2 = MatchType.word ∧
      check_word_boundary tn (pm.1 + 1 - pm.2.1.length) (pm.1 + 1) = false
  · rw [hb h1.1] at h1
    exact absurd h1.2 (by simp)
  · by_cases h2 : (pm.2.1, pm.1 + 1 - pm.2.1.length) ∈ st.1
    · simp only [h1, if_false, if_pos h2]
      exact h2
    · simp [h1, h2]

/-- Completeness of the match loop: a processed match whose boundary check
passes (when required) leaves its key in the seen set. -/
lemma fv_complete (tn : List Char) (ms : List (Nat × AutEntry)) :
    ∀ (st : FvState) (e : Nat) (ent : AutEntry), (e, ent) ∈ ms →
      (ent.2.2 = MatchType.word →
        check_word_boundary tn (e + 1 - ent.1.length) (e + 1) = true) →
      (ent.1, e + 1 - ent.1.length) ∈ (ms.foldl (fvStep tn) st).1 := by
  induction ms with
  | nil => intro st e ent h; exact absurd h (List.not_mem_nil _)
  | cons m ms ih =>
    intro st e ent hm hb
    rcases List.mem_cons.mp hm with heq | htail
    · rw [List.foldl_cons]
      apply fv_seen_mono
      rcases heq with rfl
      exact fvStep_key_mem tn st (e, ent) hb
    · rw [List.foldl_cons]
      exact ih _ e ent htail hb

/-- Membership in an insertion step of the length sort. -/
lemma mem_insertByLen (x a : AutEntry) (l : List AutEntry) :
    a ∈ insertByLen x l ↔ a = x ∨ a ∈ l := by
  induction l with
  | nil => simp [insertByLen]
  | cons y ys ih =>
    unfold insertByLen
    by_cases h : y.1.length ≤ x.1.length
    · rw [if_pos h]
      simp only [List.mem_cons]
    · rw [if_neg h]
      simp only [List.mem_cons, ih]
      tauto

/-- The length sort is a permutation for membership purposes. -/
lemma mem_sortByLen (a : AutEntry) (l : List AutEntry) :
    a ∈ sortByLen l ↔ a ∈ l := by
  induction l with
  | nil => simp [sortByLen]
  | cons y ys ih =>
    simp only [sortByLen, List.foldr_cons, List.mem_cons]
    rw [show List.foldr insertByLen [] ys = sortByLen ys from rfl] at *
    rw [mem_insertByLen, ih]

/-- Membership in the modelled automaton match stream. -/
lemma mem_automatonMatches (m : KeywordMatcher) (text : List Char) (e : Nat) (ent : AutEntry) :
    (e, ent) ∈ automatonMatches m text ↔
      e < text.length ∧ ent ∈ m.entries ∧ entMatchesAt text e ent.1 = true := by
  unfold automatonMatches
  simp only [List.mem_flatMap, List.mem_map, List.mem_range]
  constructor
  · rintro ⟨e', he', ent', hent', heq⟩
    obtain ⟨rfl, rfl⟩ : e' = e ∧ ent' = ent := by
      constructor <;> [exact congrArg Prod.fst heq; exact congrArg Prod.snd heq]
    rcases (List.mem_filter.mp ((mem_sortByLen _ _).mp hent')) with ⟨h1, h2⟩
    exact ⟨he', h1, h2⟩
  · rintro ⟨he, h1, h2⟩
    exact ⟨e, he, ent, (mem_sortByLen _ _).mpr (List.mem_filter.mpr ⟨h1, h2⟩), rfl⟩

/-! ### Invariants of the built automaton -/

/-- Membership after an `add_word`: either the freshly stored entry or one
already present. -/
lemma mem_autAdd (a : List AutEntry) (k : List Char) (v : EntryData × MatchType)
    (x : AutEntry) (hx : x ∈ autAdd a k v) : x = (k, v.1, v.2) ∨ x ∈ a := by
  unfold autAdd at hx
  by_cases h : a.any (fun p => decide (p.1 = k))
  · rw [if_pos h] at hx
    rcases List.mem_map.mp hx with ⟨p, hp, hpx⟩
    by_cases hk : p.1 = k
    · rw [if_pos hk] at hpx; exact Or.inl hpx.symm
    · rw [if_neg hk] at hpx; exact Or.inr (hpx ▸ hp)
  · rw [if_neg h] at hx
    rcases List.mem_append.mp hx with h1 | h2
    · exact Or.inr h1
    · exact Or.inl (by simpa using h2)

/-- `add_word` leaves the stored pattern list unchanged or appends the new
pattern. -/
lemma keys_autAdd (a : List AutEntry) (k : List Char) (v : EntryData × MatchType) :
    (autAdd a k v).map (fun p => p.1) = a.map (fun p => p.1) ∨
    ((autAdd a k v).map (fun p => p.1) = a.map (fun p => p.1) ++ [k] ∧
      k ∉ a.map (fun p => p.1)) := by
  unfold autAdd
  by_cases h : a.any (fun p => decide (p.1 = k))
  · rw [if_pos h]
    left
    rw [List.map_map]
    apply List.map_congr_left
    intro p _
    by_cases hk : p.1 = k
    · simp [hk]
    · simp [hk]
  · rw [if_neg h]
    right
    refine ⟨by simp, ?_⟩
    intro hk
    rcases List.mem_map.mp hk with ⟨p, hp, hpk⟩
    exact h (List.any_eq_true.mpr ⟨p, hp, by simpa using hpk⟩)

/-- The stored pattern list of the built automaton has no duplicates. -/
lemma nodup_keys_mkKeywordMatcher (kd : List KeywordItem) :
    ((mkKeywordMatcher kd).entries.map (fun p => p.1)).Nodup := by
  suffices h : ∀ (a : List AutEntry), (a.map (fun p => p.1)).Nodup →
      ((kd.foldl addKeywordItem a).map (fun p => p.1)).Nodup by
    exact h [] (by simp)
  induction kd with
  | nil => intro a ha; simpa using ha
  | cons item kd ih =>
    intro a ha
    rw [List.foldl_cons]
    apply ih
    unfold addKeywordItem
    by_cases hg : item.keyword ≠ [] ∧ pyStrip item.keyword ≠ []
    · rw [if_pos hg]
      by_cases hs : ' ' ∈ pyStrip (item.keyword.map pyToLower)
      · rw [if_pos hs]
        rcases keys_autAdd a _ _ with hsame | ⟨happ, hnew⟩
        · rw [hsame]; exact ha
        · rw [happ]
          refine ha.append (List.nodup_singleton _) ?_
          intro x hx hxk
          rw [List.mem_singleton] at hxk
          subst hxk
          exact hnew hx
      · rw [if_neg hs]
        rcases keys_autAdd a _ _ with hsame | ⟨happ, hnew⟩
        · rw [hsame]; exact ha
        · rw [happ]
          refine ha.append (List.nodup_singleton _) ?_
          intro x hx hxk
          rw [List.mem_singleton] at hxk
          subst hxk
          exact hnew hx
    · rw [if_neg hg]; exact ha

/-- In a duplicate-free automaton, the payload stored under a pattern is
unique. -/
lemma payload_unique {l : List AutEntry} (hn : (l.map (fun p => p.1)).Nodup)
    {k : List Char} {v w : EntryData × MatchType}
    (hv : (k, v.1, v.2) ∈ l) (hw : (k, w.1, w.2) ∈ l) : v = w := by
  induction l with
  | nil => exact absurd hv (List.not_mem_nil _)
  | cons p l ih =>
    rw [List.map_cons, List.nodup_cons] at hn
    rcases List.mem_cons.mp hv with hv1 | hv1 <;> rcases List.mem_cons.mp hw with hw1 | hw1
    · rw [← hv1] at hw1
      have h1 := congrArg (fun q => q.2.1) hw1
      have h2 := congrArg (fun q => q.2.2) hw1
      simp only at h1 h2
      exact (Prod.ext h1 h2).symm
    · exfalso
      apply hn.1
      rw [← hv1]
      exact List.mem_map.mpr ⟨_, hw1, rfl⟩
    · exfalso
      apply hn.1
      rw [← hw1]
      exact List.mem_map.mpr ⟨_, hv1, rfl⟩
    · exact ih hn.2 hv1 hw1

/-- Every phrase-classified entry produced by folding the keyword loop over
a list whose phrase entries all contain a space again contains a space. -/
lemma phrase_space_fold (kd : List KeywordItem) :
    ∀ (a : List AutEntry),
      (∀ k' d', (k', d', MatchType.phrase) ∈ a → ' ' ∈ k') →
      ∀ k' d', (k', d', MatchType.phrase) ∈ kd.foldl addKeywordItem a → ' ' ∈ k' := by
  induction kd with
  | nil => intro a ha k' d' h'; exact ha k' d' (by simpa using h')
  | cons item kd ih =>
    intro a ha k' d' h'
    rw [List.foldl_cons] at h'
    refine ih _ ?_ k' d' h'
    intro k2 d2 h2
    unfold addKeywordItem at h2
    by_cases hg : item.keyword ≠ [] ∧ pyStrip item.keyword ≠ []
    · rw [if_pos hg] at h2
      by_cases hs : ' ' ∈ pyStrip (item.keyword.map pyToLower)
      · rw [if_pos hs] at h2
        rcases mem_autAdd _ _ _ _ h2 with hnew | hold
        · have : k2 = pyStrip (item.keyword.map pyToLower) := congrArg (fun q => q.1) hnew
          rw [this]; exact hs
        · exact ha k2 d2 hold
      · rw [if_neg hs] at h2
        rcases mem_autAdd _ _ _ _ h2 with hnew | hold
        · exact absurd (congrArg (fun q => q.2.2) hnew) (by simp)
        · exact ha k2 d2 hold
    · rw [if_neg hg] at h2
      exact ha k2 d2 h2

/-- Every phrase-classified entry of the built automaton contains an internal
space (and so is non-empty). -/
lemma phrase_entry_space (kd : List KeywordItem) (k : List Char) (d : EntryData)
    (h : (k, d, MatchType.phrase) ∈ (mkKeywordMatcher kd).entries) : ' ' ∈ k :=
  phrase_space_fold kd [] (by intro k' d' h'; simp at h') k d h

/-! ### Top-level soundness and completeness of `find_violations` -/

/-- Soundness: every reported hit corresponds to an occurrence of a stored
pattern in the normalized text, passing the boundary check when the entry is
a single word. -/
lemma find_violations_sound (m : KeywordMatcher) (text : List Char) (h : Hit)
    (hh : h ∈ find_violations m text) :
    ∃ e ent, ent ∈ m.entries ∧ entMatchesAt (normalizeText text) e ent.1 = true ∧
      h = ⟨ent.1, ent.2.1.categories, ent.2.1.severity⟩ ∧
      (ent.2.2 = MatchType.word →
        check_word_boundary (normalizeText text) (e + 1 - ent.1.length) (e + 1) = true) := by
  rcases List.mem_map.mp hh with ⟨p, hp, hph⟩
  rcases fv_sound (normalizeText text) _ _ p hp with h0 | ⟨e, ent, hm, h1, _, h3⟩
  · exact absurd h0 (List.not_mem_nil _)
  · rcases (mem_automatonMatches m (normalizeText text) e ent).mp hm with ⟨_, hent, hmatch⟩
    exact ⟨e, ent, hent, hmatch, by rw [← hph, h1], h3⟩

/-- Completeness: a stored pattern occurring in the normalized text at
position `i`, passing the boundary check when the entry is a single word,
is reported as a hit. -/
lemma find_violations_complete (m : KeywordMatcher) (text : List Char)
    (k : List Char) (d : EntryData) (mt : MatchType)
    (hent : (k, d, mt) ∈ m.entries) (hk : k ≠ []) (i : Nat)
    (hocc : k.isPrefixOf ((normalizeText text).drop i) = true)
    (hb : mt = MatchType.word →
      check_word_boundary (normalizeText text) i (i + k.length) = true) :
    ∃ h ∈ find_violations m text, h.keyword = k := by
  have hk1 : 1 ≤ k.length := by
    cases k with
    | nil => exact absurd rfl hk
    | cons c cs => simp
  have hpre : k <+: (normalizeText text).drop i := List.isPrefixOf_iff_prefix.mp hocc
  have hlen : k.length ≤ (normalizeText text).length - i := by
    have := hpre.length_le
    simpa using this
  have hi : i + k.length ≤ (normalizeText text).length := by omega
  set e := i + k.length - 1 with he
  have hstart : e + 1 - k.length = i := by omega
  have hmatch : entMatchesAt (normalizeText text) e k = true := by
    unfold entMatchesAt
    rw [hstart]
    simp only [hocc, Bool.and_true]
    simp [hk]
    omega
  have hmm : (e, (k, d, mt)) ∈ automatonMatches m (normalizeText text) := by
    rw [mem_automatonMatches]
    exact ⟨by omega, hent, hmatch⟩
  have he1 : e + 1 = i + k.length := by omega
  have hb2 : ((k, d, mt) : AutEntry).2.2 = MatchType.word →
      check_word_boundary (normalizeText text)
        (e + 1 - ((k, d, mt) : AutEntry).1.length) (e + 1) = true := by
    intro hw
    show check_word_boundary (normalizeText text) (e + 1 - k.length) (e + 1) = true
    rw [hstart, he1]
    exact hb hw
  have hkey : (k, i) ∈ ((automatonMatches m (normalizeText text)).foldl
      (fvStep (normalizeText text)) ([], [])).1 := by
    have h0 := fv_complete (normalizeText text) (automatonMatches m (normalizeText text))
      ([], []) e (k, d, mt) hmm hb2
    simpa [hstart] using h0
  have hsync := fv_sync (normalizeText text) (automatonMatches m (normalizeText text))
    ([], []) (by simp)
  rw [hsync] at hkey
  rcases List.mem_map.mp hkey with ⟨p, hp, hpk⟩
  refine ⟨p.1, List.mem_map.mpr ⟨p, hp, rfl⟩, ?_⟩
  have := congrArg Prod.fst hpk
  simpa [keyOf] using this

/-! ### Concrete dictionaries used in the testable properties -/

/-- The keyword row for the boundary-correctness property. -/
def assItem : KeywordItem := ⟨"ass".toList, [], "LOW".toList⟩

/-- The payload stored for `"ass"`. -/
def assData : EntryData := ⟨[], "LOW".toList, "ass".toList⟩

/-- A matcher whose dictionary is the single word `"ass"`. -/
def assMatcher : KeywordMatcher := mkKeywordMatcher [assItem]

/-- The keyword row for the phrase property. -/
def goItem : KeywordItem := ⟨"go away now".toList, [], "LOW".toList⟩

/-- The payload stored for `"go away now"`. -/
def goData : EntryData := ⟨[], "LOW".toList, "go away now".toList⟩

/-- A matcher whose dictionary is the single phrase `"go away now"`. -/
def goMatcher : KeywordMatcher := mkKeywordMatcher [goItem]

/-- The keyword row for the hyphen property. -/
def selfHarmItem : KeywordItem := ⟨"self-harm".toList, [], "HIGH".toList⟩

/-- The payload stored for `"self-harm"`. -/
def selfHarmData : EntryData := ⟨[], "HIGH".toList, "self-harm".toList⟩

/-- A matcher whose dictionary is the single word `"self-harm"`. -/
def selfHarmMatcher : KeywordMatcher := mkKeywordMatcher [selfHarmItem]

/-- The U+2011 variant of `"self-harm"`. -/
def uVariant : List Char := "self".toList ++ [nbHyphen] ++ "harm".toList

/-- A text containing the U+2011 variant directly preceded by a letter. -/
def badText7 : List Char := 'x' :: uVariant

/-- C1.  Single-word entries are reported only at occurrences whose two
boundaries are non-word-forming, i.e. occurrences passing
`_check_word_boundary`; in particular `"ass"` does not match inside
`"class"` or `"assassin"` but matches in `"you ass"` and standalone. -/
theorem single_word_hits_have_boundaries :
    (∀ (kd : List KeywordItem) (text k : List Char) (d : EntryData),
        (k, d, MatchType.word) ∈ (mkKeywordMatcher kd).entries →
        ∀ h ∈ find_violations (mkKeywordMatcher kd) text, h.keyword = k →
        ∃ i, k.isPrefixOf ((normalizeText text).drop i) = true ∧
          check_word_boundary (normalizeText text) i (i + k.length) = true)
    ∧ find_violations assMatcher ("class".toList) = []
    ∧ find_violations assMatcher ("assassin".toList) = []
    ∧ (∃ h ∈ find_violations assMatcher ("you ass".toList), h.keyword = "ass".toList)
    ∧ (∃ h ∈ find_violations assMatcher ("ass".toList), h.keyword = "ass".toList) := by
  refine ⟨?_, by decide, by decide, by decide, by decide⟩
  intro kd text k d hent h hh hkw
  rcases find_violations_sound (mkKeywordMatcher kd) text h hh with
    ⟨e, ent, hente, hmatch, hform, hbnd⟩
  have hk1 : ent.1 = k := by rw [hform] at hkw; exact hkw
  have hente' : (k, ent.2.1, ent.2.2) ∈ (mkKeywordMatcher kd).entries := by
    rw [← hk1]; exact hente
  have huniq := payload_unique (nodup_keys_mkKeywordMatcher kd)
    (v := (d, MatchType.word)) (w := ent.2) hent hente'
  have hword : ent.2.2 = MatchType.word := by rw [← huniq]
  rw [hk1] at hmatch
  unfold entMatchesAt at hmatch
  simp only [Bool.and_eq_true, decide_eq_true_eq] at hmatch
  rcases hmatch with ⟨⟨_, hle⟩, hpre⟩
  have hstart : e + 1 - k.length + k.length = e + 1 := by omega
  refine ⟨e + 1 - k.length, hpre, ?_⟩
  rw [hstart]
  have := hbnd hword
  rw [hk1] at this
  exact this

/-- Witness for C1: instantiated at the dictionary `["ass"]` and the text
`"you ass"`. -/
theorem single_word_hits_have_boundaries_witness :
    ∃ i, ("ass".toList).isPrefixOf ((normalizeText ("you ass".toList)).drop i) = true ∧
      check_word_boundary (normalizeText ("you ass".toList)) i (i + ("ass".toList).length) = true :=
  single_word_hits_have_boundaries.1 [assItem] ("you ass".toList) ("ass".toList) assData
    (by decide) ⟨"ass".toList, [], "LOW".toList⟩ (by decide) (by decide)

/-- C6.  Phrase entries are reported at every occurrence in the normalized
text, with no boundary check; in particular `"go away now"` matches inside
`"please go away now please"`. -/
theorem phrase_match_unconditional :
    (∀ (kd : List KeywordItem) (text k : List Char) (d : EntryData),
        (k, d, MatchType.phrase) ∈ (mkKeywordMatcher kd).entries →
        ∀ i, k.isPrefixOf ((normalizeText text).drop i) = true →
        ∃ h ∈ find_violations (mkKeywordMatcher kd) text, h.keyword = k)
    ∧ (∃ h ∈ find_violations goMatcher ("please go away now please".toList),
        h.keyword = "go away now".toList) := by
  refine ⟨?_, by decide⟩
  intro kd text k d hent i hocc
  have hk : k ≠ [] := List.ne_nil_of_mem (phrase_entry_space kd k d hent)
  exact find_violations_complete (mkKeywordMatcher kd) text k d MatchType.phrase
    hent hk i hocc (by intro hw; simp at hw)

/-- Witness for C6: instantiated at the dictionary `["go away now"]` and the
occurrence at offset 7 of `"please go away now please"`. -/
theorem phrase_match_unconditional_witness :
    ∃ h ∈ find_violations goMatcher ("please go away now please".toList),
      h.keyword = "go away now".toList :=
  phrase_match_unconditional.1 [goItem] ("please go away now please".toList)
    ("go away now".toList) goData (by decide) 7 (by decide)

/-- C9.  The kept hits of `find_violations` are pairwise distinct in their
`(keyword, start_position)` keys, and the returned hit list is exactly the
kept hits with the positions dropped. -/
theorem dedup_by_keyword_start (m : KeywordMatcher) (text : List Char) :
    ((findViolationsKeyed m text).map keyOf).Nodup ∧
    find_violations m text = (findViolationsKeyed m text).map Prod.fst := by
  refine ⟨?_, rfl⟩
  have hsync := fv_sync (normalizeText text) (automatonMatches m (normalizeText text))
    ([], []) (by simp)
  have hnd := fv_seen_nodup (normalizeText text) (automatonMatches m (normalizeText text))
    ([], []) (by simp)
  rw [hsync] at hnd
  exact hnd

/-! ### The hyphen normalization -/

/-- The per-character effect of line 82: lowercase, then replace U+2011. -/
def normChar (c : Char) : Char :=
  if pyToLower c = nbHyphen then '-' else pyToLower c

/-- The two normalization passes amount to one character-wise map. -/
lemma normalizeText_eq_map (t : List Char) : normalizeText t = t.map normChar := by
  unfold normalizeText normChar
  rw [List.map_map]
  rfl

/-- `getD` through a map, inside the list. -/
lemma getD_map_lt (t : List Char) (f : Char → Char) (j : Nat) (hj : j < t.length)
    (d d' : Char) : (t.map f).getD j d = f (t.getD j d') := by
  rw [List.getD_eq_getElem?_getD, List.getD_eq_getElem?_getD, List.getElem?_map]
  cases h : t[j]? with
  | none =>
    rw [List.getElem?_eq_none_iff] at h
    omega
  | some c => simp

/-- Prefix occurrences are preserved by a character-wise map. -/
lemma isPrefixOf_map (p t : List Char) (f : Char → Char) (i : Nat)
    (h : p.isPrefixOf (t.drop i) = true) :
    (p.map f).isPrefixOf ((t.map f).drop i) = true := by
  rw [List.isPrefixOf_iff_prefix] at h ⊢
  rw [← List.map_drop]
  exact h.map f

/-- C7, counterexample: `badText7` contains the U+2011 variant of
`"self-harm"` as a substring, yet `find_violations` reports nothing, because
the occurrence's left neighbour is the word-forming letter `x`. -/
theorem hyphen_normalization_counterexample :
    listContainsSub uVariant badText7 = true ∧
    find_violations selfHarmMatcher badText7 = [] :=
  ⟨by decide, by decide⟩

/-- C7, amended.  `find_violations` lowercases and maps U+2011 to `-`
character-wise before matching, so the ASCII-hyphen entry `"self-harm"` is
reported whenever the U+2011 variant occurs with non-word-forming
boundaries in the normalized text. -/
theorem hyphen_normalization_spec (text : List Char) (i : Nat)
    (hocc : uVariant.isPrefixOf (text.drop i) = true)
    (hl : i = 0 ∨ isWordChar (normChar (text.getD (i - 1) ' ')) = false)
    (hr : text.length ≤ i + 9 ∨ isWordChar (normChar (text.getD (i + 9) ' ')) = false) :
    ∃ h ∈ find_violations selfHarmMatcher text, h.keyword = "self-harm".toList := by
  have hlen : i + 9 ≤ text.length := by
    have hpre := List.isPrefixOf_iff_prefix.mp hocc
    have := hpre.length_le
    simp only [List.length_drop] at this
    have huv : uVariant.length = 9 := by decide
    omega
  apply find_violations_complete selfHarmMatcher text ("self-harm".toList) selfHarmData
    MatchType.word (by decide) (by decide) i
  · rw [normalizeText_eq_map]
    have hmap := isPrefixOf_map uVariant text normChar i hocc
    have huv : uVariant.map normChar = "self-harm".toList := by decide
    rw [← huv]
    exact hmap
  · intro _
    show check_word_boundary (normalizeText text) i (i + 9) = true
    unfold check_word_boundary
    rw [normalizeText_eq_map]
    rw [Bool.and_eq_true]
    constructor
    · rw [Bool.not_eq_eq_eq_not, Bool.not_true]
      rcases hl with rfl | hl
      · simp
      · by_cases hi : i = 0
        · simp [hi]
        · rw [getD_map_lt text normChar (i - 1) (by omega) ' ' ' ', hl]
          simp
    · rw [Bool.not_eq_eq_eq_not, Bool.not_true]
      rw [List.length_map]
      rcases hr with hr | hr
      · have : decide (i + 9 < text.length) = false := by
          simp only [decide_eq_false_iff_not]
          omega
        rw [this]
        simp
      · by_cases hlt : i + 9 < text.length
        · rw [getD_map_lt text normChar (i + 9) hlt ' ' ' ', hr]
          simp
        · have : decide (i + 9 < text.length) = false := by
            simp only [decide_eq_false_iff_not]
            omega
          rw [this]
          simp

/-- Witness for C7: the standalone U+2011 variant is matched. -/
theorem hyphen_normalization_spec_witness :
    ∃ h ∈ find_violations selfHarmMatcher uVariant, h.keyword = "self-harm".toList :=
  hyphen_normalization_spec uVariant 0 (by decide) (Or.inl rfl) (Or.inl (by decide))

/-! ### Provenance of parsed utterance fields -/

/-- Dissecting a caption-line parse: the line contains a colon, the utterance
fields are the stripped split parts, and the stripped text is non-empty. -/
lemma mem_parseLine (st en line : List Char) (u : Utterance)
    (hu : u ∈ parseLine st en line) :
    line.contains ':' = true ∧
    u = ⟨pyStrip (line.takeWhile (fun c => c != ':')),
         pyStrip ((line.dropWhile (fun c => c != ':')).drop 1), st, en⟩ ∧
    pyStrip ((line.dropWhile (fun c => c != ':')).drop 1) ≠ [] := by
  unfold parseLine at hu
  by_cases h1 : line.contains ':' = true
  · rw [if_pos h1] at hu
    by_cases h2 : pyStrip ((line.dropWhile (fun c => c != ':')).drop 1) ≠ []
    · rw [if_pos h2] at hu
      rw [List.mem_singleton] at hu
      exact ⟨h1, hu, h2⟩
    · rw [if_neg h2] at hu
      simp at hu
  · rw [if_neg h1] at hu
    simp at hu

/-- Dissecting a block parse: the block passed the line-count and header
checks, the timestamp search succeeded, and the utterance came from one of
the lines after the second. -/
lemma mem_parseBlock (block : List Char) (u : Utterance) (hu : u ∈ parseBlock block) :
    ∃ i, tsSearch block = some i ∧
      ∃ l ∈ (pySplit ['\n'] (pyStrip block)).drop 2,
        u ∈ parseLine ((block.drop i).take 12) ((block.drop (i + 17)).take 12) l := by
  unfold parseBlock at hu
  by_cases hc : ((pySplit ['\n'] (pyStrip block)).length < 3 ||
      listContainsSub "WEBVTT".toList ((pySplit ['\n'] (pyStrip block)).headD [])) = true
  · rw [if_pos hc] at hu
    simp at hu
  · rw [if_neg hc] at hu
    cases hts : tsSearch block with
    | none =>
      rw [hts] at hu
      simp at hu
    | some i =>
      rw [hts] at hu
      rcases List.mem_flatMap.mp hu with ⟨l, hl, hul⟩
      exact ⟨i, rfl, l, hl, hul⟩

/-- The VTT document of the strip counterexample: one block whose caption
line carries spaces around the colon. -/
def c8content : List Char := "1\n00:00:00.000 --> 00:00:01.000\nalice : hi".toList

/-- The caption line of `c8content`. -/
def c8line : List Char := "alice : hi".toList

/-- The single utterance parsed out of `c8content`. -/
def u8 : Utterance := ⟨"alice".toList, "hi".toList, "00:00:00.000".toList, "00:00:01.000".toList⟩

/-- C8, counterexample: the caption line splits on its first colon into
`"alice "` and `" hi"`, but the emitted utterance carries the stripped
`"alice"` and `"hi"`, so the fields do not carry the split parts
unmodified. -/
theorem parser_strips_fields_counterexample :
    parse_vtt c8content = [u8] ∧
    c8line.takeWhile (fun c => c != ':') = "alice ".toList ∧
    (c8line.dropWhile (fun c => c != ':')).drop 1 = " hi".toList ∧
    u8.speaker ≠ "alice ".toList ∧
    u8.text ≠ " hi".toList :=
  ⟨by decide, by decide, by decide, by decide, by decide⟩

/-- C8, amended.  Every parsed utterance comes from a colon-carrying line
after the second line of a block whose timestamp search succeeded; its
speaker and text are the two first-colon split parts of that line, each
stripped of surrounding whitespace and otherwise unmodified (no lowercasing
or character replacement), the text being non-empty after stripping; its
timestamps are the two groups of the timestamp match. -/
theorem parser_field_provenance (content : List Char) (u : Utterance)
    (hu : u ∈ parse_vtt content) :
    ∃ b ∈ pySplit ['\n', '\n'] (pyStrip content), ∃ i, tsSearch b = some i ∧
      ∃ l ∈ (pySplit ['\n'] (pyStrip b)).drop 2,
        l.contains ':' = true ∧
        u.speaker = pyStrip (l.takeWhile (fun c => c != ':')) ∧
        u.text = pyStrip ((l.dropWhile (fun c => c != ':')).drop 1) ∧
        u.text ≠ [] ∧
        u.start_time = (b.drop i).take 12 ∧
        u.end_time = (b.drop (i + 17)).take 12 := by
  unfold parse_vtt at hu
  rcases List.mem_flatMap.mp hu with ⟨b, hb, hub⟩
  rcases mem_parseBlock b u hub with ⟨i, hts, l, hl, hul⟩
  rcases mem_parseLine _ _ l u hul with ⟨hcol, heq, hne⟩
  refine ⟨b, hb, i, hts, l, hl, hcol, ?_, ?_, ?_, ?_, ?_⟩
  · rw [heq]
  · rw [heq]
  · rw [heq]; exact hne
  · rw [heq]
  · rw [heq]

/-- Witness for C8: instantiated at `c8content` and its parsed utterance. -/
theorem parser_field_provenance_witness :
    ∃ b ∈ pySplit ['\n', '\n'] (pyStrip c8content), ∃ i, tsSearch b = some i ∧
      ∃ l ∈ (pySplit ['\n'] (pyStrip b)).drop 2,
        l.contains ':' = true ∧
        u8.speaker = pyStrip (l.takeWhile (fun c => c != ':')) ∧
        u8.text = pyStrip ((l.dropWhile (fun c => c != ':')).drop 1) ∧
        u8.text ≠ [] ∧
        u8.start_time = (b.drop i).take 12 ∧
        u8.end_time = (b.drop (i + 17)).take 12 :=
  parser_field_provenance c8content u8 (by decide)

/-! ### Report fields, severity scoring and highest severity -/

/-- C2, counterexample: the report of `process_transcript` does not carry the
claimed field names; the violation-related fields are named `total_flags`,
`flags` and `speakers_with_flags`. -/
theorem report_field_names_counterexample :
    (process_transcript (mkKeywordMatcher []) []).map Prod.fst ≠
      ["total_utterances", "total_violations", "compound_severity_score",
       "highest_severity_level", "violations", "speakers_with_violations",
       "category_report"] ∧
    "total_violations" ∉ (process_transcript (mkKeywordMatcher []) []).map Prod.fst ∧
    "violations" ∉ (process_transcript (mkKeywordMatcher []) []).map Prod.fst ∧
    "speakers_with_violations" ∉ (process_transcript (mkKeywordMatcher []) []).map Prod.fst :=
  ⟨by decide, by decide, by decide, by decide⟩

/-- C2, amended.  For every matcher and transcript, the report returned by
`process_transcript` has top-level fields exactly `total_utterances`,
`total_flags`, `compound_severity_score`, `highest_severity_level`, `flags`,
`speakers_with_flags` and `category_report`, in this order. -/
theorem report_field_names (m : KeywordMatcher) (content : List Char) :
    (process_transcript m content).map Prod.fst =
      ["total_utterances", "total_flags", "compound_severity_score",
       "highest_severity_level", "flags", "speakers_with_flags", "category_report"] := rfl

/-- The severity weight table as the specification words it: LOW 1, MEDIUM 5,
HIGH 10, anything else 1. -/
def specSeverityWeight (s : List Char) : Nat :=
  if s = "LOW".toList then 1
  else if s = "MEDIUM".toList then 5
  else if s = "HIGH".toList then 10
  else 1

/-- The dict lookup with default agrees with the specification's weight
table. -/
lemma severityScoreOf_eq (s : List Char) : severityScoreOf s = specSeverityWeight s := by
  by_cases h1 : s = "LOW".toList
  · subst h1; rfl
  · by_cases h2 : s = "MEDIUM".toList
    · subst h2; rfl
    · by_cases h3 : s = "HIGH".toList
      · subst h3; rfl
      · unfold specSeverityWeight
        rw [if_neg h1, if_neg h2, if_neg h3]
        unfold severityScoreOf
        have hn : severity_scores.find? (fun p => decide (p.1 = s)) = none := by
          rw [List.find?_eq_none]
          intro x hx
          simp only [severity_scores, List.mem_cons, List.not_mem_nil, or_false] at hx
          rcases hx with rfl | rfl | rfl
          · simp only [decide_eq_true_eq]
            exact fun hh => h1 hh.symm
          · simp only [decide_eq_true_eq]
            exact fun hh => h2 hh.symm
          · simp only [decide_eq_true_eq]
            exact fun hh => h3 hh.symm
        rw [hn]
        rfl

/-- A violation of severity LOW used in the scoring property. -/
def vLow : Violation := ⟨"k1".toList, "s1".toList, "t1".toList, "00".toList, [], "LOW".toList⟩

/-- A violation of severity HIGH used in the scoring property. -/
def vHigh : Violation := ⟨"k2".toList, "s2".toList, "t2".toList, "01".toList, [], "HIGH".toList⟩

/-- A violation of severity MEDIUM used in the scoring property. -/
def vMed : Violation := ⟨"k3".toList, "s3".toList, "t3".toList, "02".toList, [], "MEDIUM".toList⟩

/-- A violation whose severity string is outside the weight table. -/
def vSafe : Violation := ⟨"k4".toList, "s4".toList, "t4".toList, "03".toList, [], "SAFE".toList⟩

/-- C5.  The compound severity score is the sum of the per-violation weights
LOW 1, MEDIUM 5, HIGH 10 with default 1; severities LOW, HIGH, MEDIUM sum
to 16. -/
theorem compound_score_spec :
    (∀ vs : List Violation,
        compound_severity_score vs =
          (vs.map (fun v => specSeverityWeight v.severity)).sum) ∧
    compound_severity_score [vLow, vHigh, vMed] = 16 := by
  refine ⟨?_, by decide⟩
  intro vs
  unfold compound_severity_score
  congr 1
  exact List.map_congr_left (fun v _ => severityScoreOf_eq v.severity)

/-- The rank the specification assigns to severities, unknown strings
ranking lowest. -/
def sevRank (s : List Char) : Nat :=
  if s = "HIGH".toList then 3
  else if s = "MEDIUM".toList then 2
  else if s = "LOW".toList then 1
  else 0

/-- Every rank is at most the rank of HIGH. -/
lemma sevRank_le_three (s : List Char) : sevRank s ≤ 3 := by
  unfold sevRank
  split
  · omega
  · split
    · omega
    · split <;> omega

/-- Severities other than HIGH rank below MEDIUM or equal. -/
lemma sevRank_le_two (s : List Char) (h : s ≠ "HIGH".toList) : sevRank s ≤ 2 := by
  unfold sevRank
  rw [if_neg h]
  split
  · omega
  · split <;> omega

/-- Severities other than HIGH and MEDIUM rank at most like LOW. -/
lemma sevRank_le_one (s : List Char) (h1 : s ≠ "HIGH".toList) (h2 : s ≠ "MEDIUM".toList) :
    sevRank s ≤ 1 := by
  unfold sevRank
  rw [if_neg h1, if_neg h2]
  split <;> omega

/-- C4, counterexample: a report whose single violation carries the unknown
severity `"SAFE"` reports highest severity `"LOW"`, which is not a severity
present among the violations. -/
theorem highest_severity_counterexample :
    highest_severity_level [vSafe] = some ("LOW".toList) ∧
    "LOW".toList ∉ [vSafe].map (fun v => v.severity) :=
  ⟨by decide, by decide⟩

/-- Evaluation of the severity-rank search once the three presence tests are
known. -/
lemma severity_find_eq (f : List Char → Bool) (bH bM bL : Bool)
    (hH : f ("HIGH".toList) = bH) (hM : f ("MEDIUM".toList) = bM)
    (hL : f ("LOW".toList) = bL) :
    severity_order.find? f =
      if bH then some ("HIGH".toList)
      else if bM then some ("MEDIUM".toList)
      else if bL then some ("LOW".toList)
      else none := by
  unfold severity_order
  simp only [List.find?, hH, hM, hL]
  cases bH <;> cases bM <;> cases bL <;> rfl

/-- C4, amended.  The highest severity is `none` exactly on an empty
violation list; otherwise, if some violation carries one of HIGH, MEDIUM,
LOW it is the highest-ranked such severity present (HIGH above MEDIUM above
LOW, unknown strings ranked lowest); if no violation carries one of the
three it falls back to `"LOW"`, which need not be present. -/
theorem highest_severity_spec (vs : List Violation) :
    (highest_severity_level vs = none ↔ vs = []) ∧
    (vs ≠ [] → (∃ v ∈ vs, v.severity ∈ severity_order) →
      ∃ s, highest_severity_level vs = some s ∧ (∃ v ∈ vs, v.severity = s) ∧
        ∀ v ∈ vs, sevRank v.severity ≤ sevRank s) ∧
    (vs ≠ [] → (∀ v ∈ vs, v.severity ∉ severity_order) →
      highest_severity_level vs = some ("LOW".toList)) := by
  have hfind := severity_find_eq (fun sev => vs.any (fun v => decide (v.severity = sev)))
    (vs.any (fun v => decide (v.severity = "HIGH".toList)))
    (vs.any (fun v => decide (v.severity = "MEDIUM".toList)))
    (vs.any (fun v => decide (v.severity = "LOW".toList))) rfl rfl rfl
  refine ⟨?_, ?_, ?_⟩
  · unfold highest_severity_level
    by_cases h : vs = [] <;> simp [h]
  · intro hne hex
    unfold highest_severity_level
    rw [if_neg hne]
    by_cases hH : vs.any (fun v => decide (v.severity = "HIGH".toList)) = true
    · rw [hH] at hfind
      simp only [if_true] at hfind
      rw [hfind]
      refine ⟨"HIGH".toList, rfl, ?_, ?_⟩
      · rcases List.any_eq_true.mp hH with ⟨v, hv, hvs⟩
        exact ⟨v, hv, by simpa using hvs⟩
      · intro v hv
        have h3 : sevRank ("HIGH".toList) = 3 := by decide
        rw [h3]
        exact sevRank_le_three _
    · simp only [Bool.not_eq_true] at hH
      rw [hH] at hfind
      simp only [Bool.false_eq_true, if_false] at hfind
      have hHne : ∀ v ∈ vs, v.severity ≠ "HIGH".toList := by
        intro v hv
        have := List.any_eq_false.mp hH v hv
        simpa using this
      by_cases hM : vs.any (fun v => decide (v.severity = "MEDIUM".toList)) = true
      · rw [hM] at hfind
        simp only [if_true] at hfind
        rw [hfind]
        refine ⟨"MEDIUM".toList, rfl, ?_, ?_⟩
        · rcases List.any_eq_true.mp hM with ⟨v, hv, hvs⟩
          exact ⟨v, hv, by simpa using hvs⟩
        · intro v hv
          have h2 : sevRank ("MEDIUM".toList) = 2 := by decide
          rw [h2]
          exact sevRank_le_two _ (hHne v hv)
      · simp only [Bool.not_eq_true] at hM
        rw [hM] at hfind
        simp only [Bool.false_eq_true, if_false] at hfind
        have hMne : ∀ v ∈ vs, v.severity ≠ "MEDIUM".toList := by
          intro v hv
          have := List.any_eq_false.mp hM v hv
          simpa using this
        by_cases hL : vs.any (fun v => decide (v.severity = "LOW".toList)) = true
        · rw [hL] at hfind
          simp only [if_true] at hfind
          rw [hfind]
          refine ⟨"LOW".toList, rfl, ?_, ?_⟩
          · rcases List.any_eq_true.mp hL with ⟨v, hv, hvs⟩
            exact ⟨v, hv, by simpa using hvs⟩
          · intro v hv
            have h1 : sevRank ("LOW".toList) = 1 := by decide
            rw [h1]
            exact sevRank_le_one _ (hHne v hv) (hMne v hv)
        · simp only [Bool.not_eq_true] at hL
          have hLne : ∀ v ∈ vs, v.severity ≠ "LOW".toList := by
            intro v hv
            have := List.any_eq_false.mp hL v hv
            simpa using this
          exfalso
          rcases hex with ⟨v, hv, hvord⟩
          unfold severity_order at hvord
          rcases List.mem_cons.mp hvord with h | h
          · exact hHne v hv h
          rcases List.mem_cons.mp h with h' | h'
          · exact hMne v hv h'
          rcases List.mem_cons.mp h' with h'' | h''
          · exact hLne v hv h''
          · exact absurd h'' (List.not_mem_nil _)
  · intro hne hall
    have hH : vs.any (fun v => decide (v.severity = "HIGH".toList)) = false := by
      rw [List.any_eq_false]
      intro v hv
      simp only [decide_eq_true_eq]
      intro he
      exact hall v hv (by rw [he]; decide)
    have hM : vs.any (fun v => decide (v.severity = "MEDIUM".toList)) = false := by
      rw [List.any_eq_false]
      intro v hv
      simp only [decide_eq_true_eq]
      intro he
      exact hall v hv (by rw [he]; decide)
    have hL : vs.any (fun v => decide (v.severity = "LOW".toList)) = false := by
      rw [List.any_eq_false]
      intro v hv
      simp only [decide_eq_true_eq]
      intro he
      exact hall v hv (by rw [he]; decide)
    rw [hH, hM, hL] at hfind
    simp only [Bool.false_eq_true, if_false] at hfind
    unfold highest_severity_level
    rw [if_neg hne, hfind]
    rfl

/-- Witness for C4: the fallback branch at the one-element list with
severity `"SAFE"`. -/
theorem highest_severity_spec_witness :
    highest_severity_level [vSafe] = some ("LOW".toList) :=
  (highest_severity_spec [vSafe]).2.2 (by decide) (by decide)

/-! ### Category report invariants -/

/-- Membership in a Python-set add. -/
lemma mem_addSet {α} [DecidableEq α] (l : List α) (x a : α) :
    a ∈ addSet l x ↔ a ∈ l ∨ a = x := by
  unfold addSet
  by_cases h : x ∈ l
  · rw [if_pos h]
    constructor
    · exact Or.inl
    · rintro (ha | rfl)
      · exact ha
      · exact h
  · rw [if_neg h]
    simp

/-- A Python-set add preserves freedom from duplicates. -/
lemma nodup_addSet {α} [DecidableEq α] (l : List α) (x : α) (h : l.Nodup) :
    (addSet l x).Nodup := by
  unfold addSet
  by_cases hx : x ∈ l
  · rw [if_pos hx]
    exact h
  · rw [if_neg hx]
    refine h.append (List.nodup_singleton _) ?_
    intro a ha hax
    rw [List.mem_singleton] at hax
    subst hax
    exact hx ha

/-- The invariant of one category bucket: the count equals the number of
abbreviated records, and the speakers list holds each speaker of those
records exactly once. -/
def catInv (e : CategoryEntry) : Prop :=
  e.count = e.flags.length ∧ e.speakers.Nodup ∧
    ∀ s, s ∈ e.speakers ↔ s ∈ e.flags.map (fun f => f.speaker)

/-- One category update preserves the bucket invariant everywhere. -/
lemma updateCategory_inv (v : Violation) (cr : List (List Char × CategoryEntry))
    (cat : List Char) (h : ∀ p ∈ cr, catInv p.2) :
    ∀ p ∈ updateCategory v cr cat, catInv p.2 := by
  intro p hp
  unfold updateCategory at hp
  rcases List.mem_map.mp hp with ⟨q, hq, hqp⟩
  have hq2 : catInv q.2 := by
    by_cases hc : cr.any (fun p => decide (p.1 = cat)) = true
    · rw [if_pos hc] at hq
      exact h q hq
    · rw [if_neg hc] at hq
      rcases List.mem_append.mp hq with hold | hnew
      · exact h q hold
      · rw [List.mem_singleton] at hnew
        subst hnew
        exact ⟨rfl, List.nodup_nil, by simp⟩
  by_cases hqc : q.1 = cat
  · rw [if_pos hqc] at hqp
    rw [← hqp]
    refine ⟨?_, nodup_addSet _ _ hq2.2.1, ?_⟩
    · simp [hq2.1]
    · intro s
      rw [mem_addSet]
      simp only [List.map_append, List.mem_append]
      rw [hq2.2.2 s]
      unfold flagOf
      simp
  · rw [if_neg hqc] at hqp
    rw [← hqp]
    exact hq2

/-- The inner category loop preserves the bucket invariant. -/
lemma catfold_inner_inv (v : Violation) (cats : List (List Char)) :
    ∀ (cr : List (List Char × CategoryEntry)), (∀ p ∈ cr, catInv p.2) →
      ∀ p ∈ cats.foldl (updateCategory v) cr, catInv p.2 := by
  induction cats with
  | nil => intro cr h p hp; exact h p (by simpa using hp)
  | cons c cats ih =>
    intro cr h p hp
    rw [List.foldl_cons] at hp
    exact ih _ (updateCategory_inv v cr c h) p hp

/-- The outer violation loop preserves the bucket invariant. -/
lemma catfold_outer_inv (vs : List Violation) :
    ∀ (cr : List (List Char × CategoryEntry)), (∀ p ∈ cr, catInv p.2) →
      ∀ p ∈ vs.foldl (fun cr v => v.categories.foldl (updateCategory v) cr) cr,
        catInv p.2 := by
  induction vs with
  | nil => intro cr h p hp; exact h p (by simpa using hp)
  | cons v vs ih =>
    intro cr h p hp
    rw [List.foldl_cons] at hp
    exact ih _ (catfold_inner_inv v v.categories cr h) p hp

/-- C10.  In every category bucket of the category report, the count equals
the number of abbreviated records, and the speakers list holds exactly the
distinct speakers of those records, each exactly once. -/
theorem category_report_invariant (vs : List Violation) (cat : List Char)
    (entry : CategoryEntry) (h : (cat, entry) ∈ category_report vs) :
    entry.count = entry.flags.length ∧ entry.speakers.Nodup ∧
      ∀ s, s ∈ entry.speakers ↔ s ∈ entry.flags.map (fun f => f.speaker) := by
  have := catfold_outer_inv vs [] (by intro p hp; exact absurd hp (List.not_mem_nil _))
    (cat, entry) h
  exact this

/-- The violation used in the category aggregation witness. -/
def v10 : Violation :=
  ⟨"kw".toList, "alice".toList, "tx".toList, "00".toList, ["VIOLENCE".toList], "LOW".toList⟩

/-- The bucket the category report builds for `v10`. -/
def entry10 : CategoryEntry :=
  ⟨1, [⟨"kw".toList, "alice".toList, "00".toList, "LOW".toList⟩], ["alice".toList]⟩

/-- Witness for C10: the report over `[v10]` and its `"VIOLENCE"` bucket. -/
theorem category_report_invariant_witness :
    entry10.count = entry10.flags.length ∧ entry10.speakers.Nodup ∧
      ("alice".toList ∈ entry10.speakers ↔
        "alice".toList ∈ entry10.flags.map (fun f => f.speaker)) := by
  have h := category_report_invariant [v10] ("VIOLENCE".toList) entry10 (by decide)
  exact ⟨h.1, h.2.1, h.2.2 ("alice".toList)⟩

/-! ### The empty dictionary -/

/-- Folding the keyword loop over rows that all fail the usability guard
builds nothing. -/
lemma foldl_addKeywordItem_unusable (kd : List KeywordItem) :
    (∀ it ∈ kd, ¬ (it.keyword ≠ [] ∧ pyStrip it.keyword ≠ [])) →
    kd.foldl addKeywordItem [] = [] := by
  induction kd with
  | nil => intro _; rfl
  | cons it kd ih =>
    intro h
    rw [List.foldl_cons]
    have hstep : addKeywordItem [] it = [] := by
      unfold addKeywordItem
      rw [if_neg (h it (List.mem_cons_self _ _))]
    rw [hstep]
    exact ih (fun x hx => h x (List.mem_cons_of_mem _ hx))

/-- On a dictionary that stored at least one pattern, the fallible call is
the successful branch. -/
lemma find_violations_run_ok (m : KeywordMatcher) (hm : m.entries ≠ [])
    (t : List Char) : find_violations_run m t = Except.ok (find_violations m t) := by
  unfold find_violations_run automatonIter
  rw [if_neg hm]
  rfl

/-- C3, failing input.  A matcher built from a keyword table with zero
usable rows stores no pattern, so `make_automaton()` never finalizes the
automaton and `find_violations` raises `AttributeError` on every input
text instead of returning an empty hit list; the handler's report is never
built.  This contradicts the claim (and the specification's "must not be an
error"). -/
theorem empty_dictionary_raises (kd : List KeywordItem)
    (h : ∀ it ∈ kd, ¬ (it.keyword ≠ [] ∧ pyStrip it.keyword ≠ [])) :
    ∀ text, find_violations_run (mkKeywordMatcher kd) text =
      Except.error PyError.attributeError := by
  intro text
  have hm : (mkKeywordMatcher kd).entries = [] := foldl_addKeywordItem_unusable kd h
  unfold find_violations_run automatonIter
  rw [if_pos hm]

/-- A keyword row whose keyword is only whitespace. -/
def wsItem : KeywordItem := ⟨" ".toList, [], "LOW".toList⟩

/-- Witness for C3: the whitespace-only keyword table, whose matcher raises
on the concrete text "hello world". -/
theorem empty_dictionary_raises_witness :
    find_violations_run (mkKeywordMatcher [wsItem]) ("hello world".toList) =
      Except.error PyError.attributeError :=
  empty_dictionary_raises [wsItem] (by decide) ("hello world".toList)
